import Mathlib

/-!
Shallow embedding of the pravda-market backend core
(`backend/app/services/{validation,matching,settlement,balance}.py`,
`backend/app/api/routes/bets.py`, `backend/app/ton/indexer.py`) and proofs
about the claims of the specification.

Python integers are modelled as `ℤ` (ids and timestamps as `ℕ`); Python
floor division `//` is `Int.fdiv`; the database tables are lists kept in
insertion order; `SELECT ... ORDER BY ... .first()` is a fold picking the
best row under the same sort keys.
-/

/-- Order side (`orders.side`, values `'yes'`/`'no'`). -/
inductive Side where
  | yes
  | no
deriving DecidableEq, Repr

/-- Order status (`orders.status`).  `sOpen` = `'open'`, `sPartFill` =
`'partial'`, `sFilled` = `'filled'`, `sCancelled` = `'cancelled'`. -/
inductive OrderStatus where
  | sOpen
  | sPartFill
  | sFilled
  | sCancelled
deriving DecidableEq, Repr

/-- Ledger entry type (`ledger.type`). -/
inductive LKind where
  | deposit
  | orderLock
  | orderUnlock
  | tradeLock
  | payout
  | fee
  | withdrawalPending
  | withdrawalCancelled
deriving DecidableEq, Repr

/-- Row of the `orders` table. -/
structure Order where
  id : Nat
  userId : Nat
  marketId : Nat
  side : Side
  priceBp : ℤ
  amountKopecks : ℤ
  filledKopecks : ℤ
  status : OrderStatus
  createdAt : Nat
deriving DecidableEq, Repr

/-- Row of the `trades` table. -/
structure Trade where
  id : Nat
  marketId : Nat
  yesOrderId : Nat
  noOrderId : Nat
  priceBp : ℤ
  amountKopecks : ℤ
  yesCostKopecks : ℤ
  noCostKopecks : ℤ
deriving DecidableEq, Repr

/-- Row of the `ledger` table (append-only). -/
structure LedgerEntry where
  userId : Nat
  amountKopecks : ℤ
  kind : LKind
  referenceId : Option Nat
deriving DecidableEq, Repr

/-- Row of the `markets` table (the fields settlement touches). -/
structure Market where
  id : Nat
  resolved : Bool
  outcome : Option Side
  resolvedAt : Option Nat
deriving DecidableEq, Repr

/-- The database state threaded through the operations. -/
structure MState where
  markets : List Market
  orders : List Order
  trades : List Trade
  ledger : List LedgerEntry
  nextOrderId : Nat
  nextTradeId : Nat
  clock : Nat
deriving DecidableEq, Repr

/-- `sum(ledger.amount_kopecks)` over a list of entries. -/
def ledgerSum (l : List LedgerEntry) : ℤ :=
  (l.map (·.amountKopecks)).sum

/-- `balance.get_user_balance`: sum of a user's ledger entries. -/
def get_user_balance (u : Nat) (s : MState) : ℤ :=
  ledgerSum (s.ledger.filter (fun e => e.userId = u))

/-- `balance.get_available_balance`: `max(0, total)`. -/
def get_available_balance (u : Nat) (s : MState) : ℤ :=
  max 0 (get_user_balance u s)

/-- `balance.has_sufficient_balance`. -/
def has_sufficient_balance (u : Nat) (required : ℤ) (s : MState) : Bool :=
  required ≤ get_available_balance u s

/-- The lock-family entry types summed by the `locked` readout of
`GET /bets/balance`. -/
def lockKinds : List LKind := [LKind.orderLock, LKind.orderUnlock, LKind.tradeLock]

/-- The `locked` part of `bets.get_balance`: absolute value of the signed
sum of the user's `order_lock` / `order_unlock` / `trade_lock` entries. -/
def lockedAmount (u : Nat) (s : MState) : ℤ :=
  |ledgerSum (s.ledger.filter (fun e => e.userId = u ∧ e.kind ∈ lockKinds))|

/-- `validation.MIN_ORDER_SIZE_KOPECKS`. -/
def MIN_ORDER_SIZE_KOPECKS : ℤ := 100

/-- `validation.MAX_ORDER_SIZE_KOPECKS`. -/
def MAX_ORDER_SIZE_KOPECKS : ℤ := 100000000

/-- `validation.calculate_settlement`: `yes_cost = amount * price // 10000`,
`no_cost = amount - yes_cost`.  (The run-time re-check
`yes_cost + no_cost != amount_kopecks` of the source can never fire, since
`no_cost` is defined as the difference.) -/
def calculate_settlement (amountKopecks priceBp : ℤ) : ℤ × ℤ :=
  let yesCost := Int.fdiv (amountKopecks * priceBp) 10000
  (yesCost, amountKopecks - yesCost)

/-- `matching.update_order_status`. -/
def update_order_status (o : Order) : Order :=
  if o.filledKopecks = 0 then { o with status := OrderStatus.sOpen }
  else if o.amountKopecks ≤ o.filledKopecks then { o with status := OrderStatus.sFilled }
  else { o with status := OrderStatus.sPartFill }

example : calculate_settlement 100 6500 = (65, 35) := by decide
example : calculate_settlement 100 3333 = (33, 67) := by decide

/-- `matching.MAX_TRADES_PER_ORDER`. -/
def MAX_TRADES_PER_ORDER : Nat := 50

/-- The filter of `matching.find_best_match`: opposite side of the same
market, status `open` or `partial`, not the aggressor itself, and the
branch-dependent price condition (`price_bp <= 10000 - p` for a `yes`
aggressor, `price_bp >= 10000 - p` for a `no` aggressor). -/
def isMatchCandidate (o c : Order) : Prop :=
  c.marketId = o.marketId ∧
  c.side = (if o.side = Side.yes then Side.no else Side.yes) ∧
  (c.status = OrderStatus.sOpen ∨ c.status = OrderStatus.sPartFill) ∧
  c.id ≠ o.id ∧
  (if o.side = Side.yes then c.priceBp ≤ 10000 - o.priceBp
   else 10000 - o.priceBp ≤ c.priceBp)

instance (o c : Order) : Decidable (isMatchCandidate o c) := by
  unfold isMatchCandidate; infer_instance

/-- The `ORDER BY price_bp DESC, created_at ASC ... .first()` of
`find_best_match`, as a fold keeping the better row (higher price, then
earlier `created_at`; the first row in table order on full ties). -/
def pickBest (l : List Order) : Option Order :=
  l.foldl (fun acc c =>
    match acc with
    | none => some c
    | some b =>
        if b.priceBp < c.priceBp ∨ (c.priceBp = b.priceBp ∧ c.createdAt < b.createdAt)
        then some c else some b) none

/-- `matching.find_best_match`. -/
def find_best_match (o : Order) (orders : List Order) : Option Order :=
  pickBest (orders.filter (fun c => isMatchCandidate o c))

/-- `matching.settle_order_for_trade`: for one side of a fill, write
`(+matched_amount, order_unlock, ref=order)` and
`(-cost, trade_lock, ref=trade)`. -/
def settle_order_for_trade (o : Order) (amount cost : ℤ) (tradeId : Nat) :
    List LedgerEntry :=
  [⟨o.userId, amount, LKind.orderUnlock, some o.id⟩,
   ⟨o.userId, -cost, LKind.tradeLock, some tradeId⟩]

/-- `matching.execute_trade`: create the `Trade` row (always priced at the
YES order's `price_bp`) and the four settlement ledger entries. -/
def execute_trade (o1 o2 : Order) (amount : ℤ) (s : MState) : Trade × MState :=
  let yesOrder := if o1.side = Side.yes then o1 else o2
  let noOrder := if o1.side = Side.yes then o2 else o1
  let costs := calculate_settlement amount yesOrder.priceBp
  let t : Trade :=
    ⟨s.nextTradeId, yesOrder.marketId, yesOrder.id, noOrder.id,
     yesOrder.priceBp, amount, costs.1, costs.2⟩
  (t, { s with
          trades := s.trades ++ [t]
          nextTradeId := s.nextTradeId + 1
          ledger := s.ledger ++
            settle_order_for_trade yesOrder amount costs.1 t.id ++
            settle_order_for_trade noOrder amount costs.2 t.id })

/-- `UPDATE orders SET ... WHERE id = o.id` (the flush of the mutated row). -/
def updateOrder (l : List Order) (o : Order) : List Order :=
  l.map (fun x => if x.id = o.id then o else x)

/-- The `while remaining > 0 and len(trades) < MAX_TRADES_PER_ORDER` loop of
`matching.match_order`; the fuel argument counts the trades still allowed. -/
def matchLoop : Nat → Order → MState → List Trade × Order × MState
  | 0, o, s => ([], o, s)
  | fuel + 1, o, s =>
      let remaining := o.amountKopecks - o.filledKopecks
      if remaining ≤ 0 then ([], o, s)
      else
        match find_best_match o s.orders with
        | none => ([], o, s)
        | some counter =>
            let counterRemaining := counter.amountKopecks - counter.filledKopecks
            let fillAmount := min remaining counterRemaining
            if fillAmount ≤ 0 then ([], o, s)
            else
              let ts := execute_trade o counter fillAmount s
              let o' := update_order_status
                { o with filledKopecks := o.filledKopecks + fillAmount }
              let counter' := update_order_status
                { counter with filledKopecks := counter.filledKopecks + fillAmount }
              let s' := { ts.2 with
                            orders := updateOrder (updateOrder ts.2.orders o') counter' }
              let rest := matchLoop fuel o' s'
              (ts.1 :: rest.1, rest.2)

/-- `matching.match_order`: returns the created trades, the aggressor row as
finally flushed, and the resulting state. -/
def match_order (o : Order) (s : MState) : List Trade × Order × MState :=
  matchLoop MAX_TRADES_PER_ORDER o s

/-- Errors surfaced by the API routes / services. -/
inductive ApiError where
  | marketNotFound
  | marketResolved
  | orderSizeInvalid
  | insufficientFunds
  | orderNotFound
  | orderNotOpen
  | alreadyResolved
  | invariantViolated
deriving DecidableEq, Repr

/-- Result payload of `POST /bets` (`bets.place_bet`). -/
structure PlaceResult where
  orderId : Nat
  status : OrderStatus
  filledKopecks : ℤ
  trades : List Trade
deriving DecidableEq, Repr

/-- `bets.place_bet` after the major-unit → kopeck conversion: validate the
market, the order size and the balance, insert the order, write the
`(-amount, order_lock, ref=order)` entry, then run the matching engine. -/
def place_bet (u marketId : Nat) (side : Side) (priceBp amountKopecks : ℤ)
    (s : MState) : Except ApiError (PlaceResult × MState) :=
  match s.markets.find? (fun m => m.id = marketId) with
  | none => .error .marketNotFound
  | some m =>
      if m.resolved then .error .marketResolved
      else if amountKopecks < MIN_ORDER_SIZE_KOPECKS then .error .orderSizeInvalid
      else if MAX_ORDER_SIZE_KOPECKS < amountKopecks then .error .orderSizeInvalid
      else if ¬ has_sufficient_balance u amountKopecks s then .error .insufficientFunds
      else
        let o : Order :=
          ⟨s.nextOrderId, u, marketId, side, priceBp, amountKopecks, 0,
           OrderStatus.sOpen, s.clock⟩
        let s1 : MState :=
          { s with
              orders := s.orders ++ [o]
              nextOrderId := s.nextOrderId + 1
              clock := s.clock + 1
              ledger := s.ledger ++
                [⟨u, -amountKopecks, LKind.orderLock, some o.id⟩] }
        let r := match_order o s1
        .ok (⟨o.id, r.2.1.status, r.2.1.filledKopecks, r.1⟩, r.2.2)

/-- `bets.cancel_order`: only the caller's own order, only from status
`open`; writes one `(+amount, order_unlock, ref=order)` entry. -/
def cancel_order (u orderId : Nat) (s : MState) : Except ApiError MState :=
  match s.orders.find? (fun o => o.id = orderId ∧ o.userId = u) with
  | none => .error .orderNotFound
  | some o =>
      if o.status ≠ OrderStatus.sOpen then .error .orderNotOpen
      else
        .ok { s with
                orders := updateOrder s.orders { o with status := OrderStatus.sCancelled }
                ledger := s.ledger ++
                  [⟨u, o.amountKopecks, LKind.orderUnlock, some o.id⟩] }

/-- Bit length with structural fuel (sufficient for inputs below `2 ^ fuel`):
`bitsF fuel n` is `⌊log₂ n⌋ + 1` for `1 ≤ n < 2 ^ fuel`, and `0` for `n = 0`. -/
def bitsF : Nat → Nat → Nat
  | 0, _ => 0
  | fuel + 1, n => if n = 0 then 0 else bitsF fuel (n / 2) + 1

/-- Bit length of a natural number below `2 ^ 128` (all numbers arising in
the fee computation are far smaller). -/
def bits (n : Nat) : Nat := bitsF 128 n

/-- IEEE-754 binary64 rounding of the value `n / 2 ^ s` (any scale `s`),
expressed on the numerator: round `n` to 53 significant bits, to nearest,
ties to even.  Faithful for the normal range, which covers every number the
fee computation produces. -/
def rnd53 (n : Nat) : Nat :=
  if n < 2 ^ 53 then n
  else
    let k := bits n - 53
    let q := n / 2 ^ k
    let r := n % 2 ^ k
    let h := 2 ^ (k - 1)
    let m := if r < h then q else if h < r then q + 1 else q + q % 2
    m * 2 ^ k

/-- The numerator of `settlement.PLATFORM_FEE_RATE = 0.02` as a binary64
float: the double nearest to `1/50` is `5764607523034235 / 2 ^ 58`. -/
def FEE_RATE_NUM : Nat := 5764607523034235

/-- The fee computation `int(trade.amount_kopecks * PLATFORM_FEE_RATE)` of
`settlement.settle_market`, with CPython float semantics: the integer is
converted to binary64, multiplied by the double `0.02`, the product rounded
to binary64 again, and the result truncated toward zero. -/
def feeFloat (a : ℤ) : ℤ :=
  if 0 ≤ a then (rnd53 (rnd53 a.toNat * FEE_RATE_NUM) / 2 ^ 58 : Nat)
  else -(rnd53 (rnd53 (-a).toNat * FEE_RATE_NUM) / 2 ^ 58 : Nat)

/-- `settlement.settle_winner` and the loser lookup of
`settlement.settle_loser` for one trade: the winning order's owner gets
`(+gross_pot, payout, ref=trade)` and, when the fee is positive,
`(-fee, fee, ref=trade)`; the loser is looked up (a missing order aborts)
but receives no entries. -/
def settleTradeEntries (orders : List Order) (outcome : Side) (t : Trade) :
    Except ApiError (List LedgerEntry) :=
  let winnerOrderId := if outcome = Side.yes then t.yesOrderId else t.noOrderId
  let loserOrderId := if outcome = Side.yes then t.noOrderId else t.yesOrderId
  match orders.find? (fun o => o.id = winnerOrderId),
        orders.find? (fun o => o.id = loserOrderId) with
  | some w, some _ =>
      let feeKopecks := feeFloat t.amountKopecks
      .ok ([⟨w.userId, t.amountKopecks, LKind.payout, some t.id⟩] ++
           (if 0 < feeKopecks then [⟨w.userId, -feeKopecks, LKind.fee, some t.id⟩]
            else []))
  | _, _ => .error .orderNotFound

/-- The `for trade in trades` loop of `settlement.settle_market`,
concatenating the per-trade entries. -/
def settleTrades (orders : List Order) (outcome : Side) :
    List Trade → Except ApiError (List LedgerEntry)
  | [] => .ok []
  | t :: ts =>
      match settleTradeEntries orders outcome t with
      | .error err => .error err
      | .ok e =>
          match settleTrades orders outcome ts with
          | .error err => .error err
          | .ok rest => .ok (e ++ rest)

/-- `settlement.settle_market`: lock and re-check the market's `resolved`
flag, settle every trade of the market, mark the market resolved, and run
the pre-commit re-check comparing the flushed `payout` / `fee` sums against
the accumulated expectations. -/
def settle_market (marketId : Nat) (outcome : Side) (s : MState) :
    Except ApiError MState :=
  match s.markets.find? (fun m => m.id = marketId) with
  | none => .error .marketNotFound
  | some m =>
      if m.resolved then .error .alreadyResolved
      else
        let trades := s.trades.filter (fun t => t.marketId = marketId)
        match settleTrades s.orders outcome trades with
        | .error e => .error e
        | .ok entries =>
            let newLedger := s.ledger ++ entries
            let tradeIds := trades.map (·.id)
            -- the statistics accumulated in the loop
            let totalFees := (trades.map (fun t => feeFloat t.amountKopecks)).sum
            let totalNetPayout :=
              (trades.map (fun t => t.amountKopecks - feeFloat t.amountKopecks)).sum
            let expectedGrossPayout := totalNetPayout + totalFees
            let expectedFee := -totalFees
            let actualPayoutSum := ledgerSum (newLedger.filter
              (fun e => e.kind = LKind.payout ∧ ∃ i ∈ tradeIds, e.referenceId = some i))
            let actualFeeSum := ledgerSum (newLedger.filter
              (fun e => e.kind = LKind.fee ∧ ∃ i ∈ tradeIds, e.referenceId = some i))
            if trades ≠ [] ∧
                (actualPayoutSum ≠ expectedGrossPayout ∨ actualFeeSum ≠ expectedFee) then
              .error .invariantViolated
            else
              .ok { s with
                      ledger := newLedger
                      markets := s.markets.map (fun x =>
                        if x.id = marketId then
                          { x with resolved := true, outcome := some outcome,
                                   resolvedAt := some s.clock }
                        else x)
                      clock := s.clock + 1 }

/-- A parsed inbound chain transaction (`ton.client.Transaction`), as seen
by `DepositIndexer._credit_deposit` after the memo was parsed. -/
structure ChainTx where
  txHash : String
  lt : ℤ
  senderAddress : String
  valueNanoton : ℤ
deriving DecidableEq, Repr

/-- Row of the `users` table (the fields the indexer touches). -/
structure UserRow where
  id : Nat
  telegramId : ℤ
deriving DecidableEq, Repr

/-- Row of the `ton_transactions` table. -/
structure TonTxRow where
  id : Nat
  txHash : String
  lt : ℤ
  senderAddress : String
  amountNanoton : ℤ
  telegramId : ℤ
  credited : Bool
  userId : Nat
  ledgerEntryIdx : Nat
deriving DecidableEq, Repr

/-- The database state the deposit indexer reads and writes. -/
structure IndexState where
  users : List UserRow
  ledger : List LedgerEntry
  tonTxs : List TonTxRow
  nextUserId : Nat
  nextTonTxId : Nat
deriving DecidableEq, Repr

/-- `DepositIndexer._credit_deposit`.  `conv` stands for
`_convert_to_kopecks` (a fixed-rate conversion whose value is irrelevant to
the dedup logic).  Returns `True` iff the deposit was credited; if a
`ton_transactions` row with this hash already exists, nothing is written.
The ledger entry is created first with `reference_id=None` and then updated
to the new row's id; the state records the net effect. -/
def credit_deposit (conv : ℤ → ℤ) (tx : ChainTx) (telegramId : ℤ)
    (s : IndexState) : Bool × IndexState :=
  if s.tonTxs.any (fun r => r.txHash = tx.txHash) then (false, s)
  else
    let found := s.users.find? (fun u => u.telegramId = telegramId)
    let user := match found with
      | some u => u
      | none => ⟨s.nextUserId, telegramId⟩
    let s1 := match found with
      | some _ => s
      | none => { s with users := s.users ++ [user], nextUserId := s.nextUserId + 1 }
    let amountKopecks := conv tx.valueNanoton
    let entryIdx := s1.ledger.length
    let recId := s1.nextTonTxId
    let entry : LedgerEntry := ⟨user.id, amountKopecks, LKind.deposit, some recId⟩
    let recRow : TonTxRow :=
      ⟨recId, tx.txHash, tx.lt, tx.senderAddress, tx.valueNanoton, telegramId,
       true, user.id, entryIdx⟩
    (true, { s1 with
               ledger := s1.ledger ++ [entry]
               tonTxs := s1.tonTxs ++ [recRow]
               nextTonTxId := recId + 1 })

/-- Processing a batch of parsed transactions, as the polling loop does. -/
def runCredits (conv : ℤ → ℤ) (l : List (ChainTx × ℤ)) (s : IndexState) :
    IndexState :=
  l.foldl (fun st p => (credit_deposit conv p.1 p.2 st).2) s

/-- The empty database the indexer starts from. -/
def emptyIndexState : IndexState := ⟨[], [], [], 1, 1⟩

/-- An operation of the bet/cancel surface (matching runs inside
placement, as in `bets.place_bet`). -/
inductive BetOp where
  | place (user marketId : Nat) (side : Side) (priceBp amountKopecks : ℤ)
  | cancel (user orderId : Nat)
deriving DecidableEq, Repr

/-- Apply one operation; a failed request leaves the state unchanged
(the route rolls the transaction back).  Alongside the state, accumulate
the kopecks locked by successful placements, unlocked by fills, and
unlocked by successful cancellations. -/
def applyOp (st : MState × ℤ × ℤ × ℤ) (op : BetOp) : MState × ℤ × ℤ × ℤ :=
  match op with
  | .place u m side p a =>
      match place_bet u m side p a st.1 with
      | .ok (res, s') =>
          (s', st.2.1 + a,
           st.2.2.1 + (res.trades.map (·.amountKopecks)).sum, st.2.2.2)
      | .error _ => st
  | .cancel u oid =>
      match st.1.orders.find? (fun o => o.id = oid ∧ o.userId = u) with
      | some o =>
          match cancel_order u oid st.1 with
          | .ok s' => (s', st.2.1, st.2.2.1, st.2.2.2 + o.amountKopecks)
          | .error _ => st
      | none => st

/-- Run a sequence of operations with the accumulators. -/
def runOps (s : MState) (ops : List BetOp) : MState × ℤ × ℤ × ℤ :=
  ops.foldl applyOp (s, 0, 0, 0)

/-- Discard the error case, keeping the state (the route rolls back). -/
def stateAfterPlace (u m : Nat) (side : Side) (p a : ℤ) (s : MState) : MState :=
  match place_bet u m side p a s with
  | .ok r => r.2
  | .error _ => s

/-- Discard the error case of a resolution, keeping the state. -/
def stateAfterSettle (m : Nat) (outcome : Side) (s : MState) : MState :=
  match settle_market m outcome s with
  | .ok s' => s'
  | .error _ => s

/-- Whether an `Except` result is a success. -/
def exOk {ε α : Type} : Except ε α → Bool
  | .ok _ => true
  | .error _ => false

/-- One unresolved market with id 1 and two users (1 and 2) holding
1000.00₽ deposits each: the setup shared by scenarios S1/S2 of the spec. -/
def twoUserState : MState :=
  { markets := [⟨1, false, none, none⟩]
    orders := []
    trades := []
    ledger := [⟨1, 100000, LKind.deposit, none⟩, ⟨2, 100000, LKind.deposit, none⟩]
    nextOrderId := 1
    nextTradeId := 1
    clock := 0 }

/-- State after scenario S1: user 1 posts YES @ 6500 for 10000 kopecks,
then user 2 posts NO @ 3500 for 10000 kopecks (which matches). -/
def scenarioS1 : MState :=
  stateAfterPlace 2 1 Side.no 3500 10000
    (stateAfterPlace 1 1 Side.yes 6500 10000 twoUserState)

/-- State after scenario S2: S1 followed by resolving market 1 as `yes`. -/
def scenarioS2 : MState :=
  stateAfterSettle 1 Side.yes scenarioS1

/-! ## Theorems about the claims -/

/-- C4 (confirmed): for every `amount ≥ 1` and `price ∈ [0, 10000]`,
`calculate_settlement` returns `yes_cost = ⌊amount * price / 10000⌋` and
`no_cost = amount - yes_cost`, with `yes_cost + no_cost = amount` and both
costs nonnegative; and every `Trade` built by `execute_trade` satisfies
`yes_cost + no_cost = amount`. -/
theorem c4_settlement_split :
    (∀ a p : ℤ, 1 ≤ a → 0 ≤ p → p ≤ 10000 →
      (calculate_settlement a p).1 = Int.fdiv (a * p) 10000 ∧
      (calculate_settlement a p).2 = a - Int.fdiv (a * p) 10000 ∧
      (calculate_settlement a p).1 + (calculate_settlement a p).2 = a ∧
      0 ≤ (calculate_settlement a p).1 ∧
      0 ≤ (calculate_settlement a p).2) ∧
    (∀ (o1 o2 : Order) (amt : ℤ) (s : MState),
      ((execute_trade o1 o2 amt s).1).yesCostKopecks +
        ((execute_trade o1 o2 amt s).1).noCostKopecks =
        ((execute_trade o1 o2 amt s).1).amountKopecks) := by
  constructor
  · intro a p ha hp hp2
    have ha0 : (0 : ℤ) ≤ a := by omega
    have hupper : Int.fdiv (a * p) 10000 ≤ a := by
      rw [Int.fdiv_eq_ediv _ (by norm_num)]
      calc a * p / 10000 ≤ a * 10000 / 10000 := by
            exact Int.ediv_le_ediv (by norm_num) (mul_le_mul_of_nonneg_left hp2 ha0)
        _ = a := by omega
    have hlower : 0 ≤ Int.fdiv (a * p) 10000 :=
      Int.fdiv_nonneg (mul_nonneg ha0 hp) (by norm_num)
    refine ⟨rfl, rfl, ?_, hlower, ?_⟩
    · simp [calculate_settlement]
    · simpa [calculate_settlement] using hupper
  · intro o1 o2 amt s
    simp [execute_trade, calculate_settlement]

/-- Witness for `c4_settlement_split` at `amount = 100`, `price = 6500`. -/
theorem c4_settlement_split_witness :
    (calculate_settlement 100 6500).1 = Int.fdiv (100 * 6500) 10000 ∧
    (calculate_settlement 100 6500).1 + (calculate_settlement 100 6500).2 = 100 ∧
    0 ≤ (calculate_settlement 100 6500).2 := by
  have h := c4_settlement_split.1 100 6500 (by norm_num) (by norm_num) (by norm_num)
  exact ⟨h.1, h.2.2.1, h.2.2.2.2⟩

/-- A book with a resting NO order at 3000 bp (user 2), hit by a YES
aggressor at 6500 bp (user 1): the code matches them (3000 ≤ 10000 - 6500)
and prices the trade at the aggressor's price. -/
def scenarioRestingNo : MState :=
  stateAfterPlace 1 1 Side.yes 6500 10000
    (stateAfterPlace 2 1 Side.no 3000 10000 twoUserState)

/-- C3 counterexample: with a resting NO order at `q = 3000` bp, the claim
says the trade is priced at the resting order's YES price `10000 - q =
7000`; the engine prices it at the YES aggressor's `6500`. -/
theorem c3_counterexample :
    (scenarioRestingNo.orders.map (fun o => (o.side, o.priceBp, o.status)) =
      [(Side.no, 3000, OrderStatus.sFilled), (Side.yes, 6500, OrderStatus.sFilled)]) ∧
    scenarioRestingNo.trades.map (·.priceBp) = [6500] ∧
    (6500 : ℤ) ≠ 10000 - 3000 := by
  refine ⟨?_, ?_, by decide⟩ <;> rfl

/-- `update_order_status` leaves `price_bp` unchanged. -/
theorem update_order_status_priceBp (o : Order) :
    (update_order_status o).priceBp = o.priceBp := by
  unfold update_order_status
  split <;> [rfl; (split <;> rfl)]

/-- `update_order_status` leaves `side` unchanged. -/
theorem update_order_status_side (o : Order) :
    (update_order_status o).side = o.side := by
  unfold update_order_status
  split <;> [rfl; (split <;> rfl)]

/-- C3 (amended): every `Trade` written by `execute_trade` is priced at the
YES order's `price_bp` — whichever side was resting — and its cost split is
`calculate_settlement` at that price; consequently a YES aggressor's fills
are all priced at the aggressor's own price, not at the resting NO order's
complement. -/
theorem c3_amended :
    (∀ (o1 o2 : Order) (amt : ℤ) (s : MState),
      ((execute_trade o1 o2 amt s).1).priceBp =
        (if o1.side = Side.yes then o1 else o2).priceBp ∧
      ((execute_trade o1 o2 amt s).1).yesOrderId =
        (if o1.side = Side.yes then o1 else o2).id ∧
      ((execute_trade o1 o2 amt s).1).yesCostKopecks =
        (calculate_settlement amt
          ((if o1.side = Side.yes then o1 else o2).priceBp)).1 ∧
      ((execute_trade o1 o2 amt s).1).noCostKopecks =
        (calculate_settlement amt
          ((if o1.side = Side.yes then o1 else o2).priceBp)).2) ∧
    (∀ (fuel : Nat) (o : Order) (s : MState), o.side = Side.yes →
      ∀ t ∈ (matchLoop fuel o s).1, t.priceBp = o.priceBp) := by
  constructor
  · intro o1 o2 amt s
    by_cases h : o1.side = Side.yes <;> simp [execute_trade, h]
  · intro fuel
    induction fuel with
    | zero => intro o s hside t ht; simp [matchLoop] at ht
    | succ n ih =>
        intro o s hside t ht
        rw [matchLoop] at ht
        simp only at ht
        split at ht
        · simp at ht
        · split at ht
          · simp at ht
          · split at ht
            · simp at ht
            · simp only [List.mem_cons] at ht
              rcases ht with h1 | h2
              · subst h1
                simp [execute_trade, hside]
              · have h := ih _ _ (by rw [update_order_status_side]; exact hside) t h2
                rw [h, update_order_status_priceBp]

/-- A YES aggressor at 6000 bp. -/
def aggYes6000 : Order := ⟨10, 1, 1, Side.yes, 6000, 10000, 0, OrderStatus.sOpen, 5⟩

/-- A resting NO order at 5000 bp on the same market. -/
def restNo5000 : Order := ⟨11, 2, 1, Side.no, 5000, 10000, 0, OrderStatus.sOpen, 1⟩

/-- A resting NO order at 3000 bp on the same market. -/
def restNo3000 : Order := ⟨12, 2, 1, Side.no, 3000, 10000, 0, OrderStatus.sOpen, 1⟩

/-- C2 counterexample: for a YES aggressor at `p = 6000`, a resting NO at
`q = 5000` satisfies `p + q ≥ 10000` (compatible per the claim) yet
`find_best_match` returns nothing; a resting NO at `q = 3000` has
`p + q < 10000` (incompatible per the claim) yet is returned. -/
theorem c2_counterexample :
    ((10000 : ℤ) ≤ 6000 + 5000 ∧ find_best_match aggYes6000 [restNo5000] = none) ∧
    ((6000 : ℤ) + 3000 < 10000 ∧
      find_best_match aggYes6000 [restNo3000] = some restNo3000) := by
  refine ⟨⟨by norm_num, ?_⟩, ⟨by norm_num, ?_⟩⟩ <;> rfl

/-- The fold of `pickBest` only ever returns an element of the list or the
initial accumulator. -/
theorem pickBest_foldl_mem (f : Option Order → Order → Option Order)
    (hf : ∀ acc c, f acc c = acc ∨ f acc c = some c) :
    ∀ (l : List Order) (acc : Option Order) (b : Order),
      l.foldl f acc = some b → b ∈ l ∨ acc = some b := by
  intro l
  induction l with
  | nil => intro acc b h; right; exact h
  | cons c cs ih =>
      intro acc b h
      rcases ih (f acc c) b h with hb | hacc
      · left; exact List.mem_cons_of_mem _ hb
      · rcases hf acc c with h1 | h2
        · right; rw [← h1]; exact hacc
        · left; rw [h2] at hacc
          simp at hacc
          simp [hacc]

/-- The fold of `pickBest` returns `none` only from an empty list with an
empty accumulator. -/
theorem pickBest_foldl_none (f : Option Order → Order → Option Order)
    (hf : ∀ acc c, ∃ x, f acc c = some x) :
    ∀ (l : List Order) (acc : Option Order),
      l.foldl f acc = none → acc = none ∧ l = [] := by
  intro l
  induction l with
  | nil => intro acc h; exact ⟨h, rfl⟩
  | cons c cs ih =>
      intro acc h
      rcases ih (f acc c) h with ⟨hnone, _⟩
      rcases hf acc c with ⟨x, hx⟩
      rw [hx] at hnone
      cases hnone

/-- C2 (amended): `find_best_match` implements a per-side price rule, not
the symmetric `p + q ≥ 10000` of the claim: for a YES aggressor at `p` it
considers resting NO orders with `q ≤ 10000 - p`, and for a NO aggressor at
`q` resting YES orders with `p ≥ 10000 - q`.  It returns a counter-order
exactly when the book holds a resting opposite-side order of the same
market passing that rule, and anything it returns passes the rule. -/
theorem c2_amended :
    ∀ (o : Order) (book : List Order),
      ((find_best_match o book).isSome ↔ ∃ c ∈ book, isMatchCandidate o c) ∧
      (∀ c, find_best_match o book = some c → c ∈ book ∧ isMatchCandidate o c) := by
  intro o book
  have hf : ∀ (acc : Option Order) (c : Order),
      (fun acc c =>
        match acc with
        | none => some c
        | some b =>
            if b.priceBp < c.priceBp ∨ (c.priceBp = b.priceBp ∧ c.createdAt < b.createdAt)
            then some c else some b) acc c = acc ∨
      (fun acc c =>
        match acc with
        | none => some c
        | some b =>
            if b.priceBp < c.priceBp ∨ (c.priceBp = b.priceBp ∧ c.createdAt < b.createdAt)
            then some c else some b) acc c = some c := by
    intro acc c
    cases acc with
    | none => right; rfl
    | some b =>
        by_cases h : b.priceBp < c.priceBp ∨ (c.priceBp = b.priceBp ∧ c.createdAt < b.createdAt)
        · right; simp [h]
        · left; simp [h]
  have hfs : ∀ (acc : Option Order) (c : Order), ∃ x,
      (fun acc c =>
        match acc with
        | none => some c
        | some b =>
            if b.priceBp < c.priceBp ∨ (c.priceBp = b.priceBp ∧ c.createdAt < b.createdAt)
            then some c else some b) acc c = some x := by
    intro acc c
    cases acc with
    | none => exact ⟨c, rfl⟩
    | some b =>
        rcases hf (some b) c with h | h
        · exact ⟨b, h⟩
        · exact ⟨c, h⟩
  constructor
  · constructor
    · intro hs
      rw [Option.isSome_iff_exists] at hs
      rcases hs with ⟨c, hc⟩
      have hmem := pickBest_foldl_mem _ hf _ _ _ hc
      simp only [Option.some.injEq] at hmem
      rcases hmem with hmem | h
      · rcases List.mem_filter.mp hmem with ⟨hb, hp⟩
        exact ⟨c, hb, of_decide_eq_true hp⟩
      · cases h
    · intro ⟨c, hb, hp⟩
      rw [Option.isSome_iff_ne_none]
      intro hnone
      rcases pickBest_foldl_none _ hfs _ _ hnone with ⟨_, hempty⟩
      have : c ∈ book.filter (fun c => isMatchCandidate o c) :=
        List.mem_filter.mpr ⟨hb, decide_eq_true hp⟩
      rw [hempty] at this
      cases this
  · intro c hc
    have hmem := pickBest_foldl_mem _ hf _ _ _ hc
    simp only [Option.some.injEq] at hmem
    rcases hmem with hmem | h
    · rcases List.mem_filter.mp hmem with ⟨hb, hp⟩
      exact ⟨hb, of_decide_eq_true hp⟩
    · cases h

/-- Witness for `c2_amended`: at the concrete book `[restNo3000]` the
returned order is a member satisfying the engine's rule. -/
theorem c2_amended_witness :
    restNo3000 ∈ [restNo3000] ∧ isMatchCandidate aggYes6000 restNo3000 :=
  (c2_amended aggYes6000 [restNo3000]).2 restNo3000 (by rfl)

/-- `find?` by market id commutes with an id-preserving update of the
matching rows. -/
theorem find_market_after_update (l : List Market) (mid : Nat) (g : Market → Market)
    (hg : ∀ x, (g x).id = x.id) :
    (l.map (fun x => if x.id = mid then g x else x)).find? (fun m => m.id = mid) =
      (l.find? (fun m => m.id = mid)).map (fun x => if x.id = mid then g x else x) := by
  induction l with
  | nil => rfl
  | cons m ms ih =>
      by_cases h : m.id = mid
      · simp [List.find?, h, hg]
      · simp [List.find?, h, ih]

/-- C7 (confirmed): resolving a market whose `resolved` flag is already set
fails with the conflict error, leaving the state — ledger, `resolved`,
`outcome`, `resolved_at` — untouched; and after a successful resolution any
further resolution attempt fails the same way, so a market is settled at
most once. -/
theorem c7_resolve_once :
    (∀ (s : MState) (mid : Nat) (outcome : Side) (m : Market),
      s.markets.find? (fun x => x.id = mid) = some m → m.resolved = true →
      settle_market mid outcome s = .error .alreadyResolved ∧
      stateAfterSettle mid outcome s = s) ∧
    (∀ (s s' : MState) (mid : Nat) (o o' : Side),
      settle_market mid o s = .ok s' →
      settle_market mid o' s' = .error .alreadyResolved) := by
  have herr : ∀ (s : MState) (mid : Nat) (outcome : Side) (m : Market),
      s.markets.find? (fun x => x.id = mid) = some m → m.resolved = true →
      settle_market mid outcome s = .error .alreadyResolved := by
    intro s mid outcome m hfind hres
    unfold settle_market
    rw [hfind]
    simp [hres]
  constructor
  · intro s mid outcome m hfind hres
    refine ⟨herr s mid outcome m hfind hres, ?_⟩
    unfold stateAfterSettle
    rw [herr s mid outcome m hfind hres]
  · intro s s' mid o o' hok
    unfold settle_market at hok
    rcases hfind : s.markets.find? (fun x => x.id = mid) with _ | m
    · rw [hfind] at hok; cases hok
    · rw [hfind] at hok
      simp only at hok
      split at hok
      · cases hok
      · split at hok
        · cases hok
        · split at hok
          · cases hok
          · have hid : m.id = mid := by
              have := List.find?_some hfind
              simpa using this
            have hs' : s'.markets = s.markets.map (fun x =>
                if x.id = mid then
                  { x with resolved := true, outcome := some o,
                           resolvedAt := some s.clock }
                else x) := by
              cases hok
              rfl
            apply herr s' mid o'
              ({ m with resolved := true, outcome := some o,
                        resolvedAt := some s.clock })
            · have hrw := find_market_after_update s.markets mid
                (fun x => ⟨x.id, true, some o, some s.clock⟩) (fun x => rfl)
              rw [hs'] at *
              rw [hrw, hfind]
              simp [hid]
            · rfl

/-- A book holding `restNo3000` and the already-inserted aggressor
`aggYes6000`, ready for the matching loop. -/
def stBook : MState :=
  { markets := [⟨1, false, none, none⟩], orders := [restNo3000, aggYes6000],
    trades := [], ledger := [], nextOrderId := 13, nextTradeId := 1, clock := 6 }

/-- Witness for `c3_amended` at the YES aggressor `aggYes6000` on `stBook`:
its one fill is priced at the aggressor's own 6000 bp. -/
theorem c3_amended_witness :
    (⟨1, 1, 10, 12, 6000, 10000, 6000, 4000⟩ : Trade) ∈
      (matchLoop 50 aggYes6000 stBook).1 ∧
    (⟨1, 1, 10, 12, 6000, 10000, 6000, 4000⟩ : Trade).priceBp =
      aggYes6000.priceBp :=
  ⟨by decide, c3_amended.2 50 aggYes6000 stBook rfl _ (by decide)⟩

/-- A market row that is already resolved. -/
def resolvedMarketState : MState :=
  { markets := [⟨1, true, some Side.yes, some 0⟩], orders := [], trades := [],
    ledger := [], nextOrderId := 1, nextTradeId := 1, clock := 1 }

/-- Witness for `c7_resolve_once`: re-resolving the already-resolved market
of `resolvedMarketState` fails with the conflict error and changes nothing. -/
theorem c7_resolve_once_witness :
    settle_market 1 Side.no resolvedMarketState = .error .alreadyResolved ∧
    stateAfterSettle 1 Side.no resolvedMarketState = resolvedMarketState :=
  c7_resolve_once.1 resolvedMarketState 1 Side.no ⟨1, true, some Side.yes, some 0⟩
    (by decide) rfl

/-- Ledger sums add over appends. -/
theorem ledgerSum_append (a b : List LedgerEntry) :
    ledgerSum (a ++ b) = ledgerSum a + ledgerSum b := by
  simp [ledgerSum]

/-- The four entries of one fill sum to `+amount`: each side writes
`+amount` (`order_unlock`) and `-cost` (`trade_lock`), and the two costs
sum to `amount`. -/
theorem execute_trade_ledgerSum (o1 o2 : Order) (amt : ℤ) (s : MState) :
    ledgerSum ((execute_trade o1 o2 amt s).2.ledger) = ledgerSum s.ledger + amt := by
  simp [execute_trade, settle_order_for_trade, ledgerSum, calculate_settlement]

/-- `execute_trade` records a trade of exactly the fill amount. -/
theorem execute_trade_amount (o1 o2 : Order) (amt : ℤ) (s : MState) :
    ((execute_trade o1 o2 amt s).1).amountKopecks = amt := by
  simp [execute_trade]

/-- Over one matching run, the ledger sum grows by the total filled
amount. -/
theorem matchLoop_ledgerSum :
    ∀ (fuel : Nat) (o : Order) (s : MState),
      ledgerSum ((matchLoop fuel o s).2.2.ledger) =
        ledgerSum s.ledger + (((matchLoop fuel o s).1).map (·.amountKopecks)).sum := by
  intro fuel
  induction fuel with
  | zero => intro o s; simp [matchLoop]
  | succ n ih =>
      intro o s
      rw [matchLoop]
      simp only
      split
      · simp
      · split
        · simp
        · split
          · simp
          · rename_i counter hfill
            simp only [List.map_cons, List.sum_cons]
            rw [ih]
            dsimp only
            rw [execute_trade_ledgerSum, execute_trade_amount]
            ring

/-- A successful bet placement moves the ledger sum by `-amount` (the
`order_lock`) plus the total amount of its fills. -/
theorem place_bet_ledgerSum (u m : Nat) (side : Side) (p a : ℤ) (s : MState)
    (res : PlaceResult) (s' : MState)
    (h : place_bet u m side p a s = .ok (res, s')) :
    ledgerSum s'.ledger =
      ledgerSum s.ledger - a + ((res.trades.map (·.amountKopecks)).sum) := by
  unfold place_bet at h
  rcases hfind : s.markets.find? (fun x => x.id = m) with _ | mk
  · rw [hfind] at h; cases h
  · rw [hfind] at h
    simp only at h
    split at h
    · cases h
    · split at h
      · cases h
      · split at h
        · cases h
        · split at h
          · cases h
          · have hs' : s' = (match_order
                ⟨s.nextOrderId, u, m, side, p, a, 0, OrderStatus.sOpen, s.clock⟩
                { s with
                    orders := s.orders ++
                      [⟨s.nextOrderId, u, m, side, p, a, 0, OrderStatus.sOpen, s.clock⟩]
                    nextOrderId := s.nextOrderId + 1
                    clock := s.clock + 1
                    ledger := s.ledger ++
                      [⟨u, -a, LKind.orderLock, some s.nextOrderId⟩] }).2.2 := by
              cases h; rfl
            have htr : res.trades = (match_order
                ⟨s.nextOrderId, u, m, side, p, a, 0, OrderStatus.sOpen, s.clock⟩
                { s with
                    orders := s.orders ++
                      [⟨s.nextOrderId, u, m, side, p, a, 0, OrderStatus.sOpen, s.clock⟩]
                    nextOrderId := s.nextOrderId + 1
                    clock := s.clock + 1
                    ledger := s.ledger ++
                      [⟨u, -a, LKind.orderLock, some s.nextOrderId⟩] }).1 := by
              cases h; rfl
            rw [hs', htr]
            unfold match_order
            rw [matchLoop_ledgerSum]
            dsimp only
            rw [ledgerSum_append]
            simp [ledgerSum]
            ring

/-- The conserved shape of one step: each operation moves the ledger sum by
exactly its accumulator contribution. -/
theorem applyOp_ledgerSum (st : MState × ℤ × ℤ × ℤ) (op : BetOp) :
    ledgerSum (applyOp st op).1.ledger + (applyOp st op).2.1 -
      (applyOp st op).2.2.1 - (applyOp st op).2.2.2 =
    ledgerSum st.1.ledger + st.2.1 - st.2.2.1 - st.2.2.2 := by
  cases op with
  | place u m side p a =>
      simp only [applyOp]
      rcases hpl : place_bet u m side p a st.1 with e | ⟨res, s'⟩
      · simp [hpl]
      · simp only [hpl]
        rw [place_bet_ledgerSum u m side p a st.1 res s' hpl]
        ring
  | cancel u oid =>
      simp only [applyOp]
      split
      · rename_i o hfind
        split
        · rename_i s' hcan
          unfold cancel_order at hcan
          rw [hfind] at hcan
          simp only at hcan
          split at hcan
          · cases hcan
          · have hs' : s'.ledger = st.1.ledger ++
                [⟨u, o.amountKopecks, LKind.orderUnlock, some o.id⟩] := by
              cases hcan; rfl
            dsimp only
            rw [hs', ledgerSum_append]
            simp [ledgerSum]
            ring
        · ring
      · ring

/-- C1 counterexample: a single bet placement already moves `Σ ledger`
(by the `order_lock`), and the four ledger entries of one fill sum to the
fill amount, not to zero. -/
theorem c1_counterexample :
    ledgerSum (runOps twoUserState [BetOp.place 1 1 Side.yes 6500 10000]).1.ledger ≠
      ledgerSum twoUserState.ledger ∧
    stBook.ledger = [] ∧
    ledgerSum ((execute_trade aggYes6000 restNo3000 10000 stBook).2.ledger) = 10000 ∧
    (10000 : ℤ) ≠ 0 := by
  refine ⟨by decide, rfl, by decide, by decide⟩

/-- C1 (amended): over any sequence of bet placements and order
cancellations (matching runs inside placement), the ledger sum is not
invariant; it changes by exactly
`(total filled) + (total cancelled) - (total locked by placements)`, each
fill's four entries summing to `+amount` rather than zero. -/
theorem c1_amended :
    (∀ (o1 o2 : Order) (amt : ℤ) (s : MState),
      ledgerSum ((execute_trade o1 o2 amt s).2.ledger) = ledgerSum s.ledger + amt) ∧
    (∀ (s : MState) (ops : List BetOp),
      ledgerSum (runOps s ops).1.ledger =
        ledgerSum s.ledger - (runOps s ops).2.1 +
          (runOps s ops).2.2.1 + (runOps s ops).2.2.2) := by
  constructor
  · exact execute_trade_ledgerSum
  · intro s ops
    have key : ∀ (l : List BetOp) (st : MState × ℤ × ℤ × ℤ),
        ledgerSum (l.foldl applyOp st).1.ledger + (l.foldl applyOp st).2.1 -
          (l.foldl applyOp st).2.2.1 - (l.foldl applyOp st).2.2.2 =
        ledgerSum st.1.ledger + st.2.1 - st.2.2.1 - st.2.2.2 := by
      intro l
      induction l with
      | nil => intro st; rfl
      | cons op rest ih =>
          intro st
          rw [List.foldl_cons, ih (applyOp st op), applyOp_ledgerSum]
    have h := key ops (s, 0, 0, 0)
    dsimp only at h
    unfold runOps
    omega

/-- The freshly inserted order row of a successful placement. -/
def newOrderRow (u m : Nat) (side : Side) (p a : ℤ) (s : MState) : Order :=
  ⟨s.nextOrderId, u, m, side, p, a, 0, OrderStatus.sOpen, s.clock⟩

/-- The state right after the order insert and the `order_lock` write,
before matching. -/
def placedState (u m : Nat) (side : Side) (p a : ℤ) (s : MState) : MState :=
  { s with
      orders := s.orders ++ [newOrderRow u m side p a s]
      nextOrderId := s.nextOrderId + 1
      clock := s.clock + 1
      ledger := s.ledger ++ [⟨u, -a, LKind.orderLock, some s.nextOrderId⟩] }

/-- Inversion of a successful `place_bet`: the result is the order id that
was next, and the state and trades are those of the matching run from the
locked state. -/
theorem place_bet_ok_inv (u m : Nat) (side : Side) (p a : ℤ) (s : MState)
    (res : PlaceResult) (s' : MState)
    (h : place_bet u m side p a s = .ok (res, s')) :
    res.orderId = s.nextOrderId ∧
    res.trades = (match_order (newOrderRow u m side p a s)
      (placedState u m side p a s)).1 ∧
    s' = (match_order (newOrderRow u m side p a s)
      (placedState u m side p a s)).2.2 := by
  unfold place_bet at h
  rcases hfind : s.markets.find? (fun x => x.id = m) with _ | mk
  · rw [hfind] at h; cases h
  · rw [hfind] at h
    simp only at h
    split at h
    · cases h
    · split at h
      · cases h
      · split at h
        · cases h
        · split at h
          · cases h
          · cases h
            exact ⟨rfl, rfl, rfl⟩

/-- If a matching run creates no trade, it changes nothing. -/
theorem matchLoop_nil (fuel : Nat) (o : Order) (s : MState)
    (h : (matchLoop fuel o s).1 = []) :
    (matchLoop fuel o s).2.1 = o ∧ (matchLoop fuel o s).2.2 = s := by
  cases fuel with
  | zero => exact ⟨rfl, rfl⟩
  | succ n =>
      rw [matchLoop] at h ⊢
      simp only at h ⊢
      by_cases h1 : o.amountKopecks - o.filledKopecks ≤ 0
      · simp [h1]
      · rcases h2 : find_best_match o s.orders with _ | counter
        · simp [h1, h2]
        · by_cases h3 : min (o.amountKopecks - o.filledKopecks)
              (counter.amountKopecks - counter.filledKopecks) ≤ 0
          · simp [h1, h2, h3]
          · simp [h1, h2, h3] at h

/-- `find?` skips a prefix in which nothing matches. -/
theorem find?_append_of_none {α : Type} (p : α → Bool) (l1 l2 : List α)
    (h : l1.find? p = none) : (l1 ++ l2).find? p = l2.find? p := by
  induction l1 with
  | nil => simp
  | cons x xs ih =>
      cases hp : p x with
      | false =>
          simp only [List.cons_append, List.find?_cons, hp] at h ⊢
          exact ih h
      | true =>
          simp only [List.find?_cons, hp] at h
          exact Option.noConfusion h

/-- Discard the error case of a cancellation, keeping the state. -/
def stateAfterCancel (u oid : Nat) (s : MState) : MState :=
  match cancel_order u oid s with
  | .ok s' => s'
  | .error _ => s

/-- C8 (confirmed): cancellation succeeds exactly when the caller owns the
order and it is still `open`; success flips the status to `cancelled` and
writes the single `(+amount, order_unlock, ref=order)` entry; and an order
placed without fills can be cancelled, returning the user's balance (hence
the clamped `available`) to its pre-placement value. -/
theorem c8_cancel :
    (∀ (u oid : Nat) (s : MState),
      exOk (cancel_order u oid s) = true ↔
        ∃ o, s.orders.find? (fun x => x.id = oid ∧ x.userId = u) = some o ∧
          o.status = OrderStatus.sOpen) ∧
    (∀ (u oid : Nat) (s s' : MState) (o : Order),
      s.orders.find? (fun x => x.id = oid ∧ x.userId = u) = some o →
      cancel_order u oid s = .ok s' →
      s'.ledger = s.ledger ++ [⟨u, o.amountKopecks, LKind.orderUnlock, some o.id⟩] ∧
      s'.orders = updateOrder s.orders { o with status := OrderStatus.sCancelled }) ∧
    (∀ (u m : Nat) (side : Side) (p a : ℤ) (s : MState)
        (res : PlaceResult) (s1 : MState),
      place_bet u m side p a s = .ok (res, s1) →
      res.trades = [] →
      (∀ o ∈ s.orders, o.id ≠ s.nextOrderId) →
      exOk (cancel_order u res.orderId s1) = true ∧
      get_user_balance u (stateAfterCancel u res.orderId s1) =
        get_user_balance u s ∧
      get_available_balance u (stateAfterCancel u res.orderId s1) =
        get_available_balance u s) := by
  have hchar : ∀ (u oid : Nat) (s : MState),
      exOk (cancel_order u oid s) = true ↔
        ∃ o, s.orders.find? (fun x => x.id = oid ∧ x.userId = u) = some o ∧
          o.status = OrderStatus.sOpen := by
    intro u oid s
    unfold cancel_order
    rcases hfind : s.orders.find? (fun x => x.id = oid ∧ x.userId = u) with _ | o
    · rw [hfind]
      simp [exOk]
    · rw [hfind]
      by_cases hst : o.status = OrderStatus.sOpen
      · simp [hst, exOk]
      · simp [hst, exOk]
  have heffects : ∀ (u oid : Nat) (s s' : MState) (o : Order),
      s.orders.find? (fun x => x.id = oid ∧ x.userId = u) = some o →
      cancel_order u oid s = .ok s' →
      s'.ledger = s.ledger ++ [⟨u, o.amountKopecks, LKind.orderUnlock, some o.id⟩] ∧
      s'.orders = updateOrder s.orders { o with status := OrderStatus.sCancelled } := by
    intro u oid s s' o hfind hok
    unfold cancel_order at hok
    rw [hfind] at hok
    simp only at hok
    split at hok
    · cases hok
    · cases hok
      exact ⟨rfl, rfl⟩
  refine ⟨hchar, heffects, ?_⟩
  intro u m side p a s res s1 hok htr hfresh
  obtain ⟨hid, htrades, hstate⟩ := place_bet_ok_inv u m side p a s res s1 hok
  rw [htr] at htrades
  have hnil := matchLoop_nil MAX_TRADES_PER_ORDER (newOrderRow u m side p a s)
    (placedState u m side p a s) htrades.symm
  have hs1 : s1 = placedState u m side p a s := by rw [hstate]; exact hnil.2
  have hfindnew : s1.orders.find?
      (fun x => x.id = res.orderId ∧ x.userId = u) = some (newOrderRow u m side p a s) := by
    rw [hs1, hid]
    show (s.orders ++ [newOrderRow u m side p a s]).find?
      (fun x => x.id = s.nextOrderId ∧ x.userId = u) = some (newOrderRow u m side p a s)
    rw [find?_append_of_none]
    · simp [newOrderRow, List.find?_cons]
    · rw [List.find?_eq_none]
      intro x hx
      simp only [decide_eq_true_eq, not_and]
      intro hxid
      exact absurd hxid (hfresh x hx)
  have hokc : exOk (cancel_order u res.orderId s1) = true := by
    rw [hchar]
    exact ⟨newOrderRow u m side p a s, hfindnew, rfl⟩
  rcases hc : cancel_order u res.orderId s1 with e | s2
  · rw [hc] at hokc; simp [exOk] at hokc
  · have heff := heffects u res.orderId s1 s2 (newOrderRow u m side p a s) hfindnew hc
    have hbal : get_user_balance u s2 = get_user_balance u s := by
      unfold get_user_balance
      rw [heff.1, hs1]
      show ledgerSum (((s.ledger ++
          [(⟨u, -a, LKind.orderLock, some s.nextOrderId⟩ : LedgerEntry)]) ++
        [(⟨u, (newOrderRow u m side p a s).amountKopecks, LKind.orderUnlock,
          some (newOrderRow u m side p a s).id⟩ : LedgerEntry)]).filter
            (fun e => e.userId = u)) =
        ledgerSum (s.ledger.filter (fun e => e.userId = u))
      rw [List.filter_append, List.filter_append, ledgerSum_append, ledgerSum_append]
      simp [ledgerSum, newOrderRow]
    have hcstate : stateAfterCancel u res.orderId s1 = s2 := by
      unfold stateAfterCancel
      rw [hc]
    rw [hcstate]
    refine ⟨rfl, hbal, ?_⟩
    unfold get_available_balance
    rw [hbal]

/-- Witness for `c8_cancel`: user 1 places an unmatched order on the empty
book and cancels it; the cancel succeeds and the balance is restored. -/
theorem c8_cancel_witness :
    exOk (cancel_order 1 1 (stateAfterPlace 1 1 Side.yes 6500 10000 twoUserState))
        = true ∧
    get_user_balance 1
        (stateAfterCancel 1 1 (stateAfterPlace 1 1 Side.yes 6500 10000 twoUserState)) =
      get_user_balance 1 twoUserState := by
  have h := c8_cancel.2.2 1 1 Side.yes 6500 10000 twoUserState
    ⟨1, OrderStatus.sOpen, 0, []⟩
    (stateAfterPlace 1 1 Side.yes 6500 10000 twoUserState)
    (by rfl) rfl (by simp [twoUserState])
  exact ⟨h.1, h.2.1⟩

/-- After any `credit_deposit` call, a `ton_transactions` row with the
transaction's hash exists. -/
theorem credit_deposit_hash_present (conv : ℤ → ℤ) (tx : ChainTx) (tid : ℤ)
    (s : IndexState) :
    ((credit_deposit conv tx tid s).2).tonTxs.any
      (fun r => r.txHash = tx.txHash) = true := by
  unfold credit_deposit
  by_cases h : s.tonTxs.any (fun r => r.txHash = tx.txHash) = true
  · simp only [h, if_true]
  · rw [if_neg (by simpa using h)]
    rcases hfound : s.users.find? (fun u => u.telegramId = tid) with _ | u <;>
      simp [hfound, List.any_append]

/-- The invariant carried by the indexer's tables: chain hashes are unique
and there are exactly as many `ton_transactions` rows as `deposit` ledger
entries. -/
def IndexInv (s : IndexState) : Prop :=
  (s.tonTxs.map (·.txHash)).Nodup ∧
  s.tonTxs.length = (s.ledger.filter (fun e => e.kind = LKind.deposit)).length

/-- One crediting step preserves `IndexInv`. -/
theorem credit_deposit_inv (conv : ℤ → ℤ) (tx : ChainTx) (tid : ℤ)
    (s : IndexState) (h : IndexInv s) :
    IndexInv ((credit_deposit conv tx tid s).2) := by
  unfold credit_deposit
  by_cases hdup : s.tonTxs.any (fun r => r.txHash = tx.txHash) = true
  · simp only [hdup, if_true]
    exact h
  · rw [if_neg (by simpa using hdup)]
    have hfresh : ∀ r ∈ s.tonTxs, ¬(r.txHash = tx.txHash) := by
      intro r hr
      intro hcontr
      apply hdup
      rw [List.any_eq_true]
      exact ⟨r, hr, by simp [hcontr]⟩
    rcases hfound : s.users.find? (fun u => u.telegramId = tid) with _ | u <;>
    · simp only [hfound]
      constructor
      · rw [List.map_append, List.nodup_append]
        refine ⟨h.1, by simp, ?_⟩
        intro x hx
        simp only [List.map_cons, List.map_nil, List.mem_singleton]
        rcases List.mem_map.mp hx with ⟨r, hr, hxr⟩
        intro hcontr
        exact hfresh r hr (by rw [← hxr] at hcontr; exact hcontr)
      · rw [List.length_append, List.filter_append, List.length_append]
        simp only [List.length_cons, List.length_nil]
        rw [h.2]
        simp

/-- C9 (confirmed): crediting is idempotent per chain hash — a second call
for the same transaction is a no-op returning `False` — and, from the empty
database, any processing run yields pairwise-distinct chain hashes and
exactly one `deposit` ledger entry per `ton_transactions` row. -/
theorem c9_deposit_exactly_once :
    (∀ (conv : ℤ → ℤ) (tx : ChainTx) (tid tid' : ℤ) (s : IndexState),
      credit_deposit conv tx tid' ((credit_deposit conv tx tid s).2) =
        (false, (credit_deposit conv tx tid s).2)) ∧
    (∀ (conv : ℤ → ℤ) (tx : ChainTx) (tid : ℤ) (s : IndexState),
      s.tonTxs.any (fun r => r.txHash = tx.txHash) = true →
      credit_deposit conv tx tid s = (false, s)) ∧
    (∀ (conv : ℤ → ℤ) (l : List (ChainTx × ℤ)),
      ((runCredits conv l emptyIndexState).tonTxs.map (·.txHash)).Nodup ∧
      (runCredits conv l emptyIndexState).tonTxs.length =
        ((runCredits conv l emptyIndexState).ledger.filter
          (fun e => e.kind = LKind.deposit)).length) := by
  have hguard : ∀ (conv : ℤ → ℤ) (tx : ChainTx) (tid : ℤ) (s : IndexState),
      s.tonTxs.any (fun r => r.txHash = tx.txHash) = true →
      credit_deposit conv tx tid s = (false, s) := by
    intro conv tx tid s h
    unfold credit_deposit
    simp only [h, if_true]
  refine ⟨?_, hguard, ?_⟩
  · intro conv tx tid tid' s
    exact hguard conv tx tid' _ (credit_deposit_hash_present conv tx tid s)
  · intro conv l
    have : ∀ (s : IndexState), IndexInv s → IndexInv (runCredits conv l s) := by
      unfold runCredits
      induction l with
      | nil => intro s h; exact h
      | cons p rest ih =>
          intro s h
          rw [List.foldl_cons]
          exact ih _ (credit_deposit_inv conv p.1 p.2 s h)
    exact this emptyIndexState ⟨by simp [emptyIndexState], by simp [emptyIndexState]⟩

/-- An indexer database already holding the record of chain hash "ab". -/
def idxWithRecord : IndexState :=
  ⟨[⟨1, 7⟩], [⟨1, 500, LKind.deposit, some 1⟩],
   [⟨1, "ab", 5, "addr", 10, 7, true, 1, 0⟩], 2, 2⟩

/-- The chain transaction with the already-processed hash "ab". -/
def txHashAB : ChainTx := ⟨"ab", 5, "addr", 10⟩

/-- Witness for `c9_deposit_exactly_once`: re-processing the recorded hash
"ab" is a no-op. -/
theorem c9_deposit_exactly_once_witness :
    credit_deposit (fun z => z) txHashAB 7 idxWithRecord = (false, idxWithRecord) :=
  c9_deposit_exactly_once.2.1 (fun z => z) txHashAB 7 idxWithRecord (by decide)

/-- `feeFloat` is nonnegative on nonnegative amounts. -/
theorem feeFloat_nonneg (a : ℤ) (h : 0 ≤ a) : 0 ≤ feeFloat a := by
  unfold feeFloat
  rw [if_pos h]
  exact Int.ofNat_nonneg _

/-- Inversion of per-trade settlement: on success, the entries are the
winner's gross payout followed by the fee entry when the fee is positive. -/
theorem settleTradeEntries_ok (orders : List Order) (outcome : Side) (t : Trade)
    (e : List LedgerEntry) (h : settleTradeEntries orders outcome t = .ok e) :
    ∃ w, orders.find? (fun o => o.id =
        (if outcome = Side.yes then t.yesOrderId else t.noOrderId)) = some w ∧
      e = [⟨w.userId, t.amountKopecks, LKind.payout, some t.id⟩] ++
        (if 0 < feeFloat t.amountKopecks then
          [⟨w.userId, -(feeFloat t.amountKopecks), LKind.fee, some t.id⟩] else []) := by
  unfold settleTradeEntries at h
  dsimp only at h
  rcases hw : orders.find? (fun o => o.id =
      (if outcome = Side.yes then t.yesOrderId else t.noOrderId)) with _ | w
  · rw [hw] at h; cases h
  · rw [hw] at h
    rcases hl : orders.find? (fun o => o.id =
        (if outcome = Side.yes then t.noOrderId else t.yesOrderId)) with _ | l
    · rw [hl] at h; cases h
    · rw [hl] at h
      simp only at h
      cases h
      exact ⟨w, hw, rfl⟩

/-- Every entry a per-trade settlement writes references that trade. -/
theorem settleTradeEntries_refs (orders : List Order) (outcome : Side) (t : Trade)
    (e : List LedgerEntry) (h : settleTradeEntries orders outcome t = .ok e) :
    ∀ x ∈ e, x.referenceId = some t.id := by
  obtain ⟨w, _, he⟩ := settleTradeEntries_ok orders outcome t e h
  subst he
  intro x hx
  rcases List.mem_append.mp hx with hx | hx
  · rw [List.mem_singleton.mp hx]
  · split at hx
    · rw [List.mem_singleton.mp hx]
    · cases hx

/-- Inversion of the settle loop: success on a cons means success on the
head and the tail, with the entries concatenated. -/
theorem settleTrades_cons_inv (orders : List Order) (outcome : Side)
    (t : Trade) (ts : List Trade) (es : List LedgerEntry)
    (h : settleTrades orders outcome (t :: ts) = .ok es) :
    ∃ e rest, settleTradeEntries orders outcome t = .ok e ∧
      settleTrades orders outcome ts = .ok rest ∧ es = e ++ rest := by
  unfold settleTrades at h
  rcases h1 : settleTradeEntries orders outcome t with e1 | e
  · rw [h1] at h; cases h
  · rw [h1] at h
    rcases h2 : settleTrades orders outcome ts with e2 | rest
    · rw [h2] at h; cases h
    · rw [h2] at h
      simp only at h
      cases h
      exact ⟨e, rest, rfl, rfl, rfl⟩

/-- The ledger delta of the settle loop: `Σ (amount − fee)` over the
trades. -/
theorem settleTrades_sum (orders : List Order) (outcome : Side) :
    ∀ (ts : List Trade) (es : List LedgerEntry),
      settleTrades orders outcome ts = .ok es →
      (∀ t ∈ ts, 0 ≤ t.amountKopecks) →
      ledgerSum es = (ts.map
        (fun t => t.amountKopecks - feeFloat t.amountKopecks)).sum := by
  intro ts
  induction ts with
  | nil =>
      intro es h _
      unfold settleTrades at h
      cases h
      rfl
  | cons t rest ih =>
      intro es h hpos
      obtain ⟨e, restEs, h1, h2, h3⟩ := settleTrades_cons_inv _ _ _ _ _ h
      obtain ⟨w, _, he⟩ := settleTradeEntries_ok _ _ _ _ h1
      subst h3
      rw [ledgerSum_append, ih restEs h2 (fun x hx => hpos x (List.mem_cons_of_mem _ hx))]
      subst he
      rw [List.map_cons, List.sum_cons]
      have hfee := feeFloat_nonneg t.amountKopecks (hpos t (List.mem_cons_self _ _))
      by_cases hf : 0 < feeFloat t.amountKopecks
      · rw [if_pos hf]
        simp [ledgerSum]
        ring
      · rw [if_neg hf]
        have : feeFloat t.amountKopecks = 0 := by omega
        simp [ledgerSum, this]

/-- Settling trades whose ids all differ from `tid` writes no entry
referencing `tid`. -/
theorem settleTrades_filter_ne (orders : List Order) (outcome : Side) (tid : Nat) :
    ∀ (ts : List Trade) (es : List LedgerEntry),
      settleTrades orders outcome ts = .ok es →
      (∀ t' ∈ ts, t'.id ≠ tid) →
      es.filter (fun x => x.referenceId = some tid) = [] := by
  intro ts
  induction ts with
  | nil =>
      intro es h _
      unfold settleTrades at h
      cases h
      rfl
  | cons t rest ih =>
      intro es h hne
      obtain ⟨e, restEs, h1, h2, h3⟩ := settleTrades_cons_inv _ _ _ _ _ h
      subst h3
      rw [List.filter_append, ih restEs h2 (fun x hx => hne x (List.mem_cons_of_mem _ hx)),
        List.append_nil]
      rw [List.filter_eq_nil]
      intro x hx
      have := settleTradeEntries_refs _ _ _ _ h1 x hx
      simp only [this, decide_eq_true_eq, Option.some.injEq]
      exact hne t (List.mem_cons_self _ _)

/-- Among trades with pairwise-distinct ids, the entries referencing one
trade are exactly that trade's own chunk. -/
theorem settleTrades_filter_eq (orders : List Order) (outcome : Side) :
    ∀ (ts : List Trade) (es : List LedgerEntry) (t : Trade) (e : List LedgerEntry),
      settleTrades orders outcome ts = .ok es →
      (ts.map (·.id)).Nodup →
      t ∈ ts →
      settleTradeEntries orders outcome t = .ok e →
      es.filter (fun x => x.referenceId = some t.id) = e := by
  intro ts
  induction ts with
  | nil => intro es t e _ _ hmem; cases hmem
  | cons t' rest ih =>
      intro es t e h hnd hmem he
      obtain ⟨e', restEs, h1, h2, h3⟩ := settleTrades_cons_inv _ _ _ _ _ h
      subst h3
      rw [List.filter_append]
      rcases List.mem_cons.mp hmem with heq | hmem'
      · subst heq
        rw [h1] at he
        cases he
        have hall : e.filter (fun x => x.referenceId = some t.id) = e := by
          rw [List.filter_eq_self]
          intro x hx
          simp [settleTradeEntries_refs _ _ _ _ h1 x hx]
        rw [hall]
        have hrest : restEs.filter (fun x => x.referenceId = some t.id) = [] := by
          apply settleTrades_filter_ne _ _ _ _ _ h2
          intro x hx
          have hnotin := (List.nodup_cons.mp hnd).1
          intro hcontr
          apply hnotin
          show t.id ∈ List.map (fun x => x.id) rest
          rw [← hcontr]
          exact List.mem_map_of_mem (·.id) hx
        rw [hrest, List.append_nil]
      · have hhead : e'.filter (fun x => x.referenceId = some t.id) = [] := by
          rw [List.filter_eq_nil]
          intro x hx
          have := settleTradeEntries_refs _ _ _ _ h1 x hx
          simp only [this, decide_eq_true_eq, Option.some.injEq]
          have hnotin := (List.nodup_cons.mp hnd).1
          intro hcontr
          apply hnotin
          show t'.id ∈ List.map (fun x => x.id) rest
          rw [hcontr]
          exact List.mem_map_of_mem (·.id) hmem'
        rw [hhead, List.nil_append]
        exact ih restEs t e h2 (List.nodup_cons.mp hnd).2 hmem' he

/-- Success of the settle loop implies success on every member trade. -/
theorem settleTrades_mem_ok (orders : List Order) (outcome : Side) :
    ∀ (ts : List Trade) (es : List LedgerEntry),
      settleTrades orders outcome ts = .ok es →
      ∀ t ∈ ts, ∃ e, settleTradeEntries orders outcome t = .ok e := by
  intro ts
  induction ts with
  | nil => intro es _ t hmem; cases hmem
  | cons t' rest ih =>
      intro es h t hmem
      obtain ⟨e', restEs, h1, h2, _⟩ := settleTrades_cons_inv _ _ _ _ _ h
      rcases List.mem_cons.mp hmem with heq | hmem'
      · exact ⟨e', heq ▸ h1⟩
      · exact ih restEs h2 t hmem'

/-- Inversion of a successful `settle_market`: the new ledger is the old
one with the settle-loop entries appended; orders and trades are
untouched. -/
theorem settle_market_ok_inv (mid : Nat) (outcome : Side) (s s' : MState)
    (h : settle_market mid outcome s = .ok s') :
    ∃ entries,
      settleTrades s.orders outcome
        (s.trades.filter (fun t => t.marketId = mid)) = .ok entries ∧
      s'.ledger = s.ledger ++ entries ∧
      s'.trades = s.trades ∧ s'.orders = s.orders := by
  unfold settle_market at h
  rcases hfind : s.markets.find? (fun m => m.id = mid) with _ | m
  · rw [hfind] at h; cases h
  · rw [hfind] at h
    simp only at h
    split at h
    · cases h
    · rcases hst : settleTrades s.orders outcome
          (s.trades.filter (fun t => t.marketId = mid)) with err | entries
      · rw [hst] at h; cases h
      · rw [hst] at h
        simp only at h
        split at h
        · cases h
        · cases h
          exact ⟨entries, rfl, rfl, rfl, rfl⟩

/-- C5 (amended): a successful resolution appends, per trade of the market,
the winner's `(+amount, payout, ref=trade)` entry and — only when the fee is
positive — the `(-fee, fee, ref=trade)` entry, and nothing for the losing
side; the ledger sum therefore rises by `Σ (amount − fee)` over the
market's trades (it does not fall by `Σ fee`: the losers' stakes stay as
negative `trade_lock` entries from matching time). -/
theorem c5_amended (mid : Nat) (outcome : Side) (s s' : MState)
    (h : settle_market mid outcome s = .ok s')
    (hpos : ∀ t ∈ s.trades, 0 ≤ t.amountKopecks) :
    ledgerSum s'.ledger = ledgerSum s.ledger +
      ((s.trades.filter (fun t => t.marketId = mid)).map
        (fun t => t.amountKopecks - feeFloat t.amountKopecks)).sum ∧
    (((s.trades.filter (fun t => t.marketId = mid)).map (·.id)).Nodup →
      ∀ t ∈ s.trades.filter (fun t => t.marketId = mid), ∀ w : Order,
        s.orders.find? (fun o => o.id =
          (if outcome = Side.yes then t.yesOrderId else t.noOrderId)) = some w →
        (s'.ledger.drop s.ledger.length).filter
            (fun x => x.referenceId = some t.id) =
          [⟨w.userId, t.amountKopecks, LKind.payout, some t.id⟩] ++
          (if 0 < feeFloat t.amountKopecks then
            [⟨w.userId, -(feeFloat t.amountKopecks), LKind.fee, some t.id⟩]
           else [])) := by
  obtain ⟨entries, hset, hledger, _, _⟩ := settle_market_ok_inv mid outcome s s' h
  constructor
  · rw [hledger, ledgerSum_append,
      settleTrades_sum s.orders outcome _ entries hset
        (fun t ht => hpos t (List.mem_filter.mp ht).1)]
  · intro hnd t hmem w hw
    have hdrop : s'.ledger.drop s.ledger.length = entries := by
      rw [hledger, List.drop_left]
    rw [hdrop]
    obtain ⟨e, he⟩ := settleTrades_mem_ok s.orders outcome _ entries hset t hmem
    rw [settleTrades_filter_eq s.orders outcome _ entries t e hset hnd hmem he]
    obtain ⟨w', hw', hshape⟩ := settleTradeEntries_ok s.orders outcome t e he
    rw [hw] at hw'
    cases hw'
    exact hshape

/-- Three users with 1000.00₽ deposits each. -/
def threeUserState : MState :=
  { twoUserState with
      ledger := twoUserState.ledger ++ [⟨3, 100000, LKind.deposit, none⟩] }

/-- User 1 posts YES @ 6500 for 140 kopecks; users 2 and 3 post NO @ 3500
for 100 kopecks each, producing fills of 100 and of 40 kopecks — the second
a trade whose 2% fee floors to zero. -/
def scenarioSmallTrade : MState :=
  stateAfterPlace 3 1 Side.no 3500 100
    (stateAfterPlace 2 1 Side.no 3500 100
      (stateAfterPlace 1 1 Side.yes 6500 140 threeUserState))

/-- C5 counterexample: resolving the S1 market moves the ledger sum up by
`amount − fee = 9800`, not down by the fee `200`; and the 40-kopeck trade
of `scenarioSmallTrade` (fee `⌊40·0.02⌋ = 0`) yields a single winner entry,
not two. -/
theorem c5_counterexample :
    exOk (settle_market 1 Side.yes scenarioS1) = true ∧
    ledgerSum scenarioS2.ledger = ledgerSum scenarioS1.ledger + 9800 ∧
    (9800 : ℤ) ≠ -200 ∧
    (scenarioSmallTrade.trades.map (·.amountKopecks) = [100, 40]) ∧
    feeFloat 40 = 0 ∧
    exOk (settle_market 1 Side.yes scenarioSmallTrade) = true ∧
    (((stateAfterSettle 1 Side.yes scenarioSmallTrade).ledger.drop
        scenarioSmallTrade.ledger.length).filter
          (fun e => e.referenceId = some 2)).length = 1 := by
  exact ⟨by decide, by decide, by decide, by decide, by decide, by decide, by decide⟩

/-- Witness for `c5_amended`: the resolution of scenario S1 satisfies the
ledger-delta equation. -/
theorem c5_amended_witness :
    ledgerSum scenarioS2.ledger = ledgerSum scenarioS1.ledger +
      ((scenarioS1.trades.filter (fun t => t.marketId = 1)).map
        (fun t => t.amountKopecks - feeFloat t.amountKopecks)).sum :=
  (c5_amended 1 Side.yes scenarioS1 scenarioS2 (by rfl) (by decide)).1

/-- C10 counterexample: after scenario S2 the `locked` readout for user A
is 65.00₽ (the `trade_lock` stays on the books after resolution), not the
0 the claim states. -/
theorem c10_counterexample :
    exOk (settle_market 1 Side.yes scenarioS1) = true ∧
    lockedAmount 1 scenarioS2 = 6500 ∧ (6500 : ℤ) ≠ 0 := by
  exact ⟨by decide, by decide, by decide⟩

/-- C10 (amended): in scenario S2 the balance readout returns for A
`available = 1033.00₽` and `locked = 65.00₽`, and for B
`available = 965.00₽` and `locked = 35.00₽` (in kopecks below): the
payout and fee land in `available`, while each side's `trade_lock` remains
in the lock-family sum because resolution writes no unlock. -/
theorem c10_scenario_s2 :
    exOk (place_bet 1 1 Side.yes 6500 10000 twoUserState) = true ∧
    exOk (place_bet 2 1 Side.no 3500 10000
      (stateAfterPlace 1 1 Side.yes 6500 10000 twoUserState)) = true ∧
    exOk (settle_market 1 Side.yes scenarioS1) = true ∧
    get_available_balance 1 scenarioS2 = 103300 ∧
    lockedAmount 1 scenarioS2 = 6500 ∧
    get_available_balance 2 scenarioS2 = 96500 ∧
    lockedAmount 2 scenarioS2 = 3500 := by
  exact ⟨by decide, by decide, by decide, by decide, by decide, by decide, by decide⟩

/-- Specification of the fueled bit length: for `1 ≤ n < 2 ^ f` it returns
the number of binary digits of `n`. -/
theorem bitsF_spec :
    ∀ (f n : ℕ), n < 2 ^ f → 1 ≤ n →
      1 ≤ bitsF f n ∧ 2 ^ (bitsF f n - 1) ≤ n ∧ n < 2 ^ bitsF f n := by
  intro f
  induction f with
  | zero =>
      intro n hf h1
      simp at hf
      omega
  | succ g ih =>
      intro n hf h1
      have hne : ¬(n = 0) := by omega
      rw [bitsF, if_neg hne]
      by_cases h2 : n < 2
      · have hn1 : n = 1 := by omega
        subst hn1
        norm_num [bitsF]
        cases g <;> simp [bitsF]
      · have hhalf1 : 1 ≤ n / 2 := by omega
        have hhalff : n / 2 < 2 ^ g := by
          have h2g : 2 * (n / 2) ≤ n := by omega
          have : n ≤ 2 ^ (g + 1) - 1 := by omega
          have hp : 2 ^ (g + 1) = 2 * 2 ^ g := by ring
          omega
        obtain ⟨hb1, hlow, hhigh⟩ := ih (n / 2) hhalff hhalf1
        refine ⟨by omega, ?_, ?_⟩
        · have : 2 ^ (bitsF g (n / 2) + 1 - 1) = 2 * 2 ^ (bitsF g (n / 2) - 1) := by
            have hsplit : bitsF g (n / 2) + 1 - 1 = (bitsF g (n / 2) - 1) + 1 := by omega
            rw [hsplit]; ring
          rw [this]
          omega
        · have : 2 ^ (bitsF g (n / 2) + 1) = 2 * 2 ^ bitsF g (n / 2) := by ring
          omega

/-- Specification of `bits` below `2 ^ 128`. -/
theorem bits_spec (n : ℕ) (hf : n < 2 ^ 128) (h1 : 1 ≤ n) :
    1 ≤ bits n ∧ 2 ^ (bits n - 1) ≤ n ∧ n < 2 ^ bits n :=
  bitsF_spec 128 n hf h1

/-- `bits` is bounded by any exponent bounding the input. -/
theorem bits_le (n t : ℕ) (hf : n < 2 ^ 128) (h : n < 2 ^ t) : bits n ≤ t := by
  by_cases h1 : 1 ≤ n
  · obtain ⟨_, hlow, _⟩ := bits_spec n hf h1
    by_contra hc
    push_neg at hc
    have : 2 ^ t ≤ 2 ^ (bits n - 1) := Nat.pow_le_pow_right (by norm_num) (by omega)
    omega
  · have : n = 0 := by omega
    subst this
    simp [bits, bitsF]

/-- Small numbers round to themselves. -/
theorem rnd53_small (n : ℕ) (h : n < 2 ^ 53) : rnd53 n = n := by
  unfold rnd53
  rw [if_pos h]

/-- Rounding error bound: rounding to 53 significant bits moves the value
by at most one part in `2 ^ 53`. -/
theorem rnd53_err (n : ℕ) (hn : n < 2 ^ 128) :
    2 ^ 53 * rnd53 n ≤ 2 ^ 53 * n + n ∧ 2 ^ 53 * n ≤ 2 ^ 53 * rnd53 n + n := by
  unfold rnd53
  by_cases hsmall : n < 2 ^ 53
  · rw [if_pos hsmall]
    omega
  · rw [if_neg hsmall]
    have h1 : 1 ≤ n := by
      have : (1 : ℕ) ≤ 2 ^ 53 := Nat.one_le_two_pow
      omega
    obtain ⟨-, hlow, hhigh⟩ := bits_spec n hn h1
    have hb54 : 54 ≤ bits n := by
      by_contra hc
      push_neg at hc
      have : 2 ^ bits n ≤ 2 ^ 53 := Nat.pow_le_pow_right (by norm_num) (by omega)
      omega
    set k := bits n - 53 with hk
    have hk1 : 1 ≤ k := by omega
    dsimp only
    set q := n / 2 ^ k with hqdef
    set r := n % 2 ^ k with hrdef
    have hq : q * 2 ^ k + r = n := by
      rw [hqdef, hrdef, Nat.mul_comm]
      exact Nat.div_add_mod n (2 ^ k)
    have hr : r < 2 ^ k := by
      rw [hrdef]
      exact Nat.mod_lt _ (Nat.pos_pow_of_pos k (by norm_num))
    have hhalf : 2 ^ k = 2 * 2 ^ (k - 1) := by
      have hs : k = (k - 1) + 1 := by omega
      calc 2 ^ k = 2 ^ ((k - 1) + 1) := by rw [← hs]
        _ = 2 * 2 ^ (k - 1) := by ring
    have hgrid : 2 ^ 53 * 2 ^ (k - 1) ≤ n := by
      have he : 53 + (k - 1) = bits n - 1 := by omega
      calc 2 ^ 53 * 2 ^ (k - 1) = 2 ^ (53 + (k - 1)) := by rw [pow_add]
        _ = 2 ^ (bits n - 1) := by rw [he]
        _ ≤ n := hlow
    by_cases hc1 : r < 2 ^ (k - 1)
    · rw [if_pos hc1]
      omega
    · rw [if_neg hc1]
      by_cases hc2 : 2 ^ (k - 1) < r
      · rw [if_pos hc2]
        have hexp : (q + 1) * 2 ^ k = q * 2 ^ k + 2 ^ k := by ring
        omega
      · rw [if_neg hc2]
        have hreq : r = 2 ^ (k - 1) := by omega
        rcases (show q % 2 = 0 ∨ q % 2 = 1 by omega) with hq0 | hq1
        · rw [hq0]
          have hexp : (q + 0) * 2 ^ k = q * 2 ^ k := by ring
          omega
        · rw [hq1]
          have hexp : (q + 1) * 2 ^ k = q * 2 ^ k + 2 ^ k := by ring
          omega

/-- Rounding never drops below a multiple of a coarser power-of-two grid
that bounds the value from below. -/
theorem rnd53_ge_multiple (n j t : ℕ) (hn : n < 2 ^ 128)
    (hj : 2 ^ t * j ≤ n) (ht : bits n ≤ 53 + t) : 2 ^ t * j ≤ rnd53 n := by
  unfold rnd53
  by_cases hsmall : n < 2 ^ 53
  · rw [if_pos hsmall]
    exact hj
  · rw [if_neg hsmall]
    have h1 : 1 ≤ n := by
      have : (1 : ℕ) ≤ 2 ^ 53 := Nat.one_le_two_pow
      omega
    obtain ⟨-, hlow, hhigh⟩ := bits_spec n hn h1
    have hb54 : 54 ≤ bits n := by
      by_contra hc
      push_neg at hc
      have : 2 ^ bits n ≤ 2 ^ 53 := Nat.pow_le_pow_right (by norm_num) (by omega)
      omega
    set k := bits n - 53 with hk
    have hkt : k ≤ t := by omega
    dsimp only
    set q := n / 2 ^ k with hqdef
    have hstep : 2 ^ t * j ≤ q * 2 ^ k := by
      have hdivle : 2 ^ t * j / 2 ^ k ≤ q := by
        rw [hqdef]
        exact Nat.div_le_div_right hj
      have hsplit : 2 ^ t = 2 ^ (t - k) * 2 ^ k := by
        rw [← pow_add]
        congr 1
        omega
      have hexact : 2 ^ t * j / 2 ^ k = 2 ^ (t - k) * j := by
        rw [hsplit, Nat.mul_assoc, Nat.mul_comm (2 ^ k) j, ← Nat.mul_assoc]
        exact Nat.mul_div_cancel _ (Nat.pos_pow_of_pos k (by norm_num))
      calc 2 ^ t * j = 2 ^ (t - k) * j * 2 ^ k := by
            rw [hsplit]; ring
        _ ≤ q * 2 ^ k := Nat.mul_le_mul_right _ (by rw [← hexact]; exact hdivle)
    have hmono : ∀ m : ℕ, q ≤ m → 2 ^ t * j ≤ m * 2 ^ k := by
      intro m hm
      exact le_trans hstep (Nat.mul_le_mul_right _ hm)
    split
    · exact hmono q (le_refl q)
    · split
      · exact hmono (q + 1) (by omega)
      · exact hmono (q + q % 2) (by omega)

/-- The double-rounded 2% fee agrees with exact integer arithmetic on the
whole order-size range: for `1 ≤ n ≤ 10^8`,
`trunc(rnd(rnd(n) · 0.02)) = n / 50`. -/
theorem feeNat_eq (n : ℕ) (h1 : 1 ≤ n) (h2 : n ≤ 100000000) :
    rnd53 (rnd53 n * FEE_RATE_NUM) / 2 ^ 58 = n / 50 := by
  have hsm : rnd53 n = n := rnd53_small n (by norm_num; omega)
  rw [hsm]
  unfold FEE_RATE_NUM
  set N := n * 5764607523034235 with hN
  set j := n / 50 with hjdef
  set r := n % 50 with hrdef
  have hn50 : 50 * j + r = n := by
    rw [hjdef, hrdef]
    exact Nat.div_add_mod n 50
  have hr49 : r < 50 := by
    rw [hrdef]
    exact Nat.mod_lt _ (by norm_num)
  have hj2 : j ≤ 2000000 := by omega
  have hNexp : N = 2 ^ 58 * j + (6 * j + r * 5764607523034235) := by
    rw [hN, ← hn50]
    have hp : (2 : ℕ) ^ 58 = 288230376151711744 := by norm_num
    rw [hp]
    ring
  have hNbound : N < 2 ^ 79 := by
    have hle : N ≤ 100000000 * 5764607523034235 := by
      rw [hN]
      exact Nat.mul_le_mul_right _ h2
    have : (100000000 : ℕ) * 5764607523034235 < 2 ^ 79 := by norm_num
    omega
  have hN128 : N < 2 ^ 128 := by
    have : (2 : ℕ) ^ 79 < 2 ^ 128 := by norm_num
    omega
  have hbits : bits N ≤ 53 + 58 := by
    have := bits_le N 79 hN128 hNbound
    omega
  have hlower : 2 ^ 58 * j ≤ rnd53 N := by
    apply rnd53_ge_multiple N j 58 hN128 _ hbits
    omega
  have herr := (rnd53_err N hN128).1
  have hup : rnd53 N < 2 ^ 58 * (j + 1) := by
    have key : 2 ^ 53 * N + N < 2 ^ 53 * (2 ^ 58 * (j + 1)) := by
      have hp53 : (2 : ℕ) ^ 53 = 9007199254740992 := by norm_num
      have hp58 : (2 : ℕ) ^ 58 = 288230376151711744 := by norm_num
      rw [hNexp, hp53, hp58]
      omega
    exact Nat.lt_of_mul_lt_mul_left (lt_of_le_of_lt herr key)
  have hdivlow : j ≤ rnd53 N / 2 ^ 58 :=
    (Nat.le_div_iff_mul_le (by norm_num)).mpr (by omega)
  have hdivhigh : rnd53 N / 2 ^ 58 < j + 1 :=
    (Nat.div_lt_iff_lt_mul (by norm_num)).mpr (by omega)
  omega

set_option maxRecDepth 40000 in
/-- C6 counterexample: the claim quantifies over every `amount ≥ 1`, but
`int(amount * 0.02)` is float arithmetic: at
`amount = 18014398509481999` (a value above `2 ^ 53`) the conversion to
binary64 rounds the amount up to a multiple of 50 and the computed fee is
one kopeck more than `⌊amount · 2 / 100⌋`. -/
theorem c6_counterexample :
    feeFloat 18014398509481999 = 360287970189640 ∧
    Int.fdiv (18014398509481999 * 2) 100 = 360287970189639 ∧
    (360287970189640 : ℤ) ≠ 360287970189639 := by
  exact ⟨by decide, by decide, by decide⟩

/-- C6 (amended): for every amount in the valid order range
`1 ≤ amount ≤ 10^8` kopecks — which bounds every fill the matching engine
can produce — the settlement fee `feeFloat amount` equals the exact
`⌊amount · 2 / 100⌋` of the claim.  (Beyond the float-exact range the two
diverge, as the counterexample shows.) -/
theorem c6_amended (a : ℤ) (h1 : 1 ≤ a) (h2 : a ≤ 100000000) :
    feeFloat a = Int.fdiv (a * 2) 100 := by
  have ha0 : 0 ≤ a := by omega
  obtain ⟨n, hn⟩ := Int.eq_ofNat_of_zero_le ha0
  subst hn
  have hn1 : 1 ≤ n := by exact_mod_cast h1
  have hn2 : n ≤ 100000000 := by exact_mod_cast h2
  unfold feeFloat
  rw [if_pos ha0]
  have htoNat : ((n : ℤ)).toNat = n := Int.toNat_ofNat n
  rw [htoNat, feeNat_eq n hn1 hn2]
  have hmul : ((n : ℤ)) * 2 = ((2 * n : ℕ) : ℤ) := by
    push_cast
    ring
  rw [hmul, Int.fdiv_eq_ediv _ (by norm_num)]
  have hcast : ((2 * n : ℕ) : ℤ) / ((100 : ℕ) : ℤ) = ((2 * n / 100 : ℕ) : ℤ) :=
    (Int.ofNat_ediv (2 * n) 100).symm
  have h100 : ((100 : ℕ) : ℤ) = (100 : ℤ) := by norm_num
  rw [← h100, hcast]
  congr 1
  have : (100 : ℕ) = 2 * 50 := by norm_num
  rw [this, Nat.mul_div_mul_left _ _ (by norm_num)]

/-- Witness for `c6_amended` at `amount = 10000` (the 100.00₽ pot of
scenario S1): the fee is 200 kopecks. -/
theorem c6_amended_witness :
    feeFloat 10000 = Int.fdiv (10000 * 2) 100 :=
  c6_amended 10000 (by norm_num) (by norm_num)
